import Mathlib

/-!
Shallow embedding of the SFLizer corpus-analysis logic
(`src/SFLizer_1_04.py` and `src/streamlit_app.py`):
the KWIC concordance extractor, the POS frequency aggregator
(Python `Counter.most_common`), and the SFL process classifier.

Tokens are spaCy tokens reduced to the five attributes the code reads:
`text`, `lemma_`, `pos_`, `is_alpha`, `is_stop`.  Python's `str.lower`
is modelled per character by `Char.toLower` (ASCII case mapping), and
`Counter.most_common()` by a stable merge sort on descending counts,
matching CPython's documented behaviour (`sorted(..., reverse=True)` is
stable; `Counter` keys iterate in first-insertion order).
-/

namespace SFLizer

/-- An annotated token as consumed by the analysis functions. -/
structure Token where
  text : String
  lemma_ : String
  pos_ : String
  is_alpha : Bool
  is_stop : Bool
deriving DecidableEq

/-- Python `s.lower()` restricted to the ASCII case mapping: lowercase
every character. -/
def pyLower (s : String) : String := ⟨s.data.map Char.toLower⟩

/-- A row of the KWIC concordance table (`{"Left":…,"Keyword":…,"Right":…}`). -/
structure KwicRow where
  left : String
  keyword : String
  right : String
deriving DecidableEq

/-- The match condition of `kwic`:
`t.lemma_.lower()==lemma.lower() and t.pos_==pos_tag`. -/
def matchTok (lm pos_tag : String) (t : Token) : Bool :=
  pyLower t.lemma_ == pyLower lm && t.pos_ == pos_tag

/-- The hit list of `kwic`:
`[i for i,t in enumerate(tokens) if t.lemma_.lower()==lemma.lower() and t.pos_==pos_tag]`. -/
def kwic_hits (tokens : List Token) (lm pos_tag : String) : List Nat :=
  (tokens.enum.filter (fun it => matchTok lm pos_tag it.2)).map Prod.fst

/-- The tokens of the left context: `tokens[max(0,i-window):i]`
(Nat subtraction truncates at zero exactly like `max(0, i-window)`). -/
def left_tokens (tokens : List Token) (window i : Nat) : List Token :=
  (tokens.take i).drop (i - window)

/-- The tokens of the right context: `tokens[i+1:i+1+window]`. -/
def right_tokens (tokens : List Token) (window i : Nat) : List Token :=
  (tokens.drop (i + 1)).take window

/-- One concordance row built at hit index `i`:
left and right contexts are joined by single spaces, the keyword is
`tokens[i].text` (the index is always in range when `i` is a hit). -/
def mkRow (tokens : List Token) (window i : Nat) : KwicRow :=
  { left := String.intercalate " " ((left_tokens tokens window i).map Token.text)
    keyword := ((tokens[i]?).map Token.text).getD ""
    right := String.intercalate " " ((right_tokens tokens window i).map Token.text) }

/-- The `kwic` helper of `SFLizer_1_04.py`: one row per hit, hits capped
at `max_rows`, scanned in document order. -/
def kwic (tokens : List Token) (lm pos_tag : String) (window max_rows : Nat) :
    List KwicRow :=
  ((kwic_hits tokens lm pos_tag).take max_rows).map (mkRow tokens window)

/-- The filtered, lower-cased lemma list built by the loop of
`analyze_pos`: keep tokens with the target POS that are alphabetic,
skip stop words when `remove_stop`, lowercase the lemma and keep it
when its length reaches `min_len`. -/
def analyze_pos_items : List Token → String → Nat → Bool → List String
  | [], _, _, _ => []
  | t :: ts, pos_tag, min_len, remove_stop =>
    let rest := analyze_pos_items ts pos_tag min_len remove_stop
    if t.pos_ == pos_tag && t.is_alpha then
      if remove_stop && t.is_stop then rest
      else if min_len ≤ (pyLower t.lemma_).length then pyLower t.lemma_ :: rest
      else rest
    else rest

/-- The keys of `Counter(items)` in first-insertion order: each element
of `items` once, at the position of its first occurrence. -/
def counter_keys : List String → List String
  | [] => []
  | x :: xs => x :: (counter_keys xs).filter (fun y => y != x)

/-- The comparison used by `most_common`: sort pairs so that larger
counts come first (`sorted(..., key=itemgetter(1), reverse=True)`). -/
def countLe (a b : String × Nat) : Bool := decide (b.2 ≤ a.2)

/-- Python `Counter(items).most_common()`: the `(key, count)` pairs in
first-insertion order, stably sorted by descending count. -/
def most_common (items : List String) : List (String × Nat) :=
  ((counter_keys items).map (fun k => (k, items.count k))).mergeSort countLe

/-- The `analyze_pos` function of `SFLizer_1_04.py`, returning the rows
of its DataFrame as `(lemma, frequency)` pairs. -/
def analyze_pos (doc : List Token) (pos_tag : String) (min_len : Nat)
    (remove_stop : Bool) : List (String × Nat) :=
  most_common (analyze_pos_items doc pos_tag min_len remove_stop)

/-- A token passes all filters of `analyze_pos` (POS match, alphabetic,
stop-word exclusion, minimum lemma length). -/
def qualifies (pos_tag : String) (min_len : Nat) (remove_stop : Bool)
    (t : Token) : Bool :=
  t.pos_ == pos_tag && t.is_alpha && !(remove_stop && t.is_stop)
    && decide (min_len ≤ (pyLower t.lemma_).length)

/-- The match positions of a KWIC request, described directly by index:
all `i < tokens.length` whose token matches lemma and POS, in
increasing (document) order. -/
def match_indices (tokens : List Token) (lm pos_tag : String) : List Nat :=
  (List.range tokens.length).filter (fun i => (tokens[i]?).any (matchTok lm pos_tag))

/-- The `sfl_map` dictionary of `streamlit_app.py` as an association
list; the Python dict literal has no duplicate key, so `find?` lookup
agrees with Python dict lookup. -/
def sfl_map : List (String × String) :=
  [("do", "Material"), ("make", "Material"), ("build", "Material"),
   ("create", "Material"), ("use", "Material"), ("support", "Material"),
   ("develop", "Material"), ("increase", "Material"), ("reduce", "Material"),
   ("reach", "Material"), ("grow", "Material"), ("provide", "Material"),
   ("help", "Material"), ("deliver", "Material"), ("implement", "Material"),
   ("manage", "Material"), ("improve", "Material"), ("enhance", "Material"),
   ("construct", "Material"), ("invest", "Material"),
   ("know", "Mental"), ("see", "Mental"), ("think", "Mental"),
   ("expect", "Mental"), ("believe", "Mental"), ("feel", "Mental"),
   ("understand", "Mental"), ("assume", "Mental"), ("consider", "Mental"),
   ("perceive", "Mental"), ("realize", "Mental"),
   ("be", "Relational"), ("have", "Relational"), ("include", "Relational"),
   ("remain", "Relational"), ("consist", "Relational"),
   ("represent", "Relational"), ("mean", "Relational"), ("equal", "Relational"),
   ("say", "Verbal"), ("report", "Verbal"), ("suggest", "Verbal"),
   ("claim", "Verbal"), ("explain", "Verbal"), ("mention", "Verbal"),
   ("highlight", "Verbal"), ("state", "Verbal"), ("assert", "Verbal"),
   ("communicate", "Verbal"),
   ("watch", "Behavioral"), ("listen", "Behavioral"), ("smile", "Behavioral"),
   ("cry", "Behavioral"), ("breathe", "Behavioral"), ("stare", "Behavioral"),
   ("look", "Behavioral"), ("laugh", "Behavioral"), ("observe", "Behavioral"),
   ("shrug", "Behavioral"),
   ("exist", "Existential"), ("arise", "Existential"), ("appear", "Existential"),
   ("emerge", "Existential"), ("occur", "Existential"), ("happen", "Existential"),
   ("prevail", "Existential")]

/-- Python `sfl_map.get(lm, "Material")`. -/
def sfl_get (lm : String) : String :=
  (((sfl_map.find? (fun p => p.1 == lm)).map Prod.snd).getD "Material")

/-- The classification applied to a lemma by `analyze_text`: the lemma
is lower-cased (`t.lemma_.lower()`) and looked up in `sfl_map` with
default `"Material"`. -/
def classify_process (lm : String) : String := sfl_get (pyLower lm)

/-- The six SFL process categories. -/
def sfl_categories : List String :=
  ["Material", "Mental", "Relational", "Verbal", "Behavioral", "Existential"]

/-- Char.ofNat recovers the code point for any valid code. -/
theorem char_toNat_ofNat {n : Nat} (h : n < 55296) : (Char.ofNat n).toNat = n := by
  rw [Char.ofNat, dif_pos (Or.inl h)]
  rfl

/-- An upper-case ASCII letter is lowered by adding 32. -/
theorem char_toLower_of_upper {c : Char} (h : 65 ≤ c.toNat ∧ c.toNat ≤ 90) :
    Char.toLower c = Char.ofNat (c.toNat + 32) := by
  simp only [Char.toLower, ge_iff_le]
  rw [if_pos h]

/-- A character that is not an upper-case ASCII letter is left alone. -/
theorem char_toLower_of_not_upper {c : Char} (h : ¬(65 ≤ c.toNat ∧ c.toNat ≤ 90)) :
    Char.toLower c = c := by
  simp only [Char.toLower, ge_iff_le]
  rw [if_neg h]

/-- Lowercasing a character is idempotent. -/
theorem char_toLower_idem (c : Char) : (Char.toLower c).toLower = Char.toLower c := by
  by_cases h : 65 ≤ c.toNat ∧ c.toNat ≤ 90
  · have h1 : Char.toLower c = Char.ofNat (c.toNat + 32) := char_toLower_of_upper h
    have h2 : (Char.toLower c).toNat = c.toNat + 32 := by
      rw [h1, char_toNat_ofNat (by omega)]
    exact char_toLower_of_not_upper (by omega)
  · rw [char_toLower_of_not_upper h, char_toLower_of_not_upper h]

/-- Lowercasing a string is idempotent. -/
theorem pyLower_idem (s : String) : pyLower (pyLower s) = pyLower s := by
  simp only [pyLower, List.map_map]
  congr 1
  exact List.map_congr_left fun c _ => char_toLower_idem c

/-- The keys of the `sfl_map` dictionary are pairwise distinct, so
association-list lookup agrees with Python dict lookup. -/
theorem sfl_map_keys_nodup : (sfl_map.map Prod.fst).Nodup := by decide

/-- Every category stored in `sfl_map` is one of the six. -/
theorem sfl_map_values_valid : ∀ p ∈ sfl_map, p.2 ∈ sfl_categories := by decide

/-- Lookup in an association list with distinct keys finds exactly the
stored pair. -/
theorem find?_eq_of_mem_of_nodup :
    ∀ {l : List (String × String)}, (l.map Prod.fst).Nodup →
    ∀ {k v : String}, (k, v) ∈ l → l.find? (fun p => p.1 == k) = some (k, v) := by
  intro l
  induction l with
  | nil => intro _ k v hm; cases hm
  | cons p ps ih =>
    intro hnd k v hm
    rcases List.mem_cons.mp hm with heq | hmem
    · subst heq
      exact List.find?_cons_of_pos _ (by simp)
    · have hk : p.1 ≠ k := by
        intro hcontra
        have : k ∈ ps.map Prod.fst := List.mem_map_of_mem Prod.fst hmem
        rw [List.map_cons] at hnd
        exact (List.nodup_cons.mp hnd).1 (hcontra ▸ this)
      rw [List.find?_cons_of_neg _ (by simpa using hk)]
      exact ih (by rw [List.map_cons] at hnd; exact (List.nodup_cons.mp hnd).2) hmem

/-- C3: for every string, the process classifier gives the same
category on the string and on its lowercased form, and calling it
twice on the same string gives the same category. -/
theorem c3_classifier_case_insensitive (s : String) :
    classify_process s = classify_process (pyLower s) ∧
    classify_process s = classify_process s := by
  constructor
  · simp only [classify_process]
    rw [pyLower_idem]
  · rfl

/-- C8: the classifier returns the stored category for keys of the
table and "Material" otherwise; "know" maps to "Mental", "xyz123" to
"Material", and every output is one of the six categories. -/
theorem c8_classifier_lookup (lm : String) :
    (∀ c, (pyLower lm, c) ∈ sfl_map → classify_process lm = c) ∧
    ((∀ c, (pyLower lm, c) ∉ sfl_map) → classify_process lm = "Material") ∧
    classify_process lm ∈ sfl_categories ∧
    classify_process "know" = "Mental" ∧
    classify_process "xyz123" = "Material" := by
  refine ⟨?_, ?_, ?_, by decide, by decide⟩
  · intro c hc
    simp only [classify_process, sfl_get]
    rw [find?_eq_of_mem_of_nodup sfl_map_keys_nodup hc]
    rfl
  · intro habs
    simp only [classify_process, sfl_get]
    have : sfl_map.find? (fun p => p.1 == pyLower lm) = none := by
      rw [List.find?_eq_none]
      intro x hx hpx
      have hx1 : x.1 = pyLower lm := by simpa using hpx
      exact habs x.2 (by rw [← hx1]; exact hx)
    rw [this]
    rfl
  · simp only [classify_process, sfl_get]
    cases hfind : sfl_map.find? (fun p => p.1 == pyLower lm) with
    | none => decide
    | some q =>
      simp only [Option.map_some', Option.getD_some]
      exact sfl_map_values_valid q (List.mem_of_find?_eq_some hfind)

/-- C8 witness: the classifier applied at the concrete lemmas "Know"
and "xyz123". -/
theorem c8_classifier_lookup_witness :
    classify_process "Know" = "Mental" ∧ classify_process "xyz123" = "Material" :=
  ⟨(c8_classifier_lookup "Know").1 "Mental" (by decide),
   (c8_classifier_lookup "xyz123").2.1
     (fun c hc =>
       absurd (show pyLower "xyz123" ∈ sfl_map.map Prod.fst from
         List.mem_map_of_mem Prod.fst hc) (by decide))⟩

/-- The five-token document of the spec's KWIC example; only the token
"runs" (lemma "run", POS VERB) matters to the claim, the surrounding
annotations are the natural ones. -/
def c1_tokens : List Token :=
  [⟨"The", "the", "DET", true, true⟩,
   ⟨"cat", "cat", "NOUN", true, false⟩,
   ⟨"runs", "run", "VERB", true, false⟩,
   ⟨"fast", "fast", "ADV", true, false⟩,
   ⟨"now", "now", "ADV", true, false⟩]

/-- C1 (counterexample): on [The, cat, runs, fast, now] with window 2,
`kwic` does not return the single row (left "cat", keyword "runs",
right "fast now"): the left slice `tokens[max(0,2-2):2]` is
[The, cat], so the left context is "The cat", not "cat". -/
theorem c1_counterexample :
    kwic c1_tokens "run" "VERB" 2 50 ≠ [⟨"cat", "runs", "fast now"⟩] := by
  decide

/-- C1 (amended): on the token sequence [The, cat, runs, fast, now]
where "runs" has lemma "run" and POS VERB, `kwic` with target lemma
"run" and window 2 returns exactly one row, with left context
"The cat", keyword "runs", and right context "fast now". -/
theorem c1_kwic_example :
    kwic c1_tokens "run" "VERB" 2 50 = [⟨"The cat", "runs", "fast now"⟩] := by
  decide

/-- C9: on the empty token sequence the frequency aggregator returns
an empty table and the KWIC extractor returns zero rows; both are
total functions, so no error condition exists. -/
theorem c9_empty_input (pos_tag : String) (min_len : Nat) (remove_stop : Bool)
    (lm kpos : String) (window max_rows : Nat) :
    analyze_pos [] pos_tag min_len remove_stop = [] ∧
    kwic [] lm kpos window max_rows = [] := by
  constructor
  · simp [analyze_pos, most_common, analyze_pos_items, counter_keys]
  · simp [kwic, kwic_hits]

/-- Membership in the hit list gives a position inside the document. -/
theorem kwic_hits_lt {tokens : List Token} {lm pos_tag : String} {i : Nat}
    (h : i ∈ kwic_hits tokens lm pos_tag) : i < tokens.length := by
  simp only [kwic_hits, List.mem_map, List.mem_filter] at h
  obtain ⟨⟨j, t⟩, ⟨hmem, _⟩, rfl⟩ := h
  obtain ⟨hlt, -⟩ := List.getElem?_eq_some.mp (List.mk_mem_enum_iff_getElem?.mp hmem)
  exact hlt

/-- Every returned row is built by `mkRow` at some hit position inside
the document. -/
theorem kwic_row_shape {tokens : List Token} {lm pos_tag : String}
    {window max_rows : Nat} {row : KwicRow}
    (h : row ∈ kwic tokens lm pos_tag window max_rows) :
    ∃ i, i < tokens.length ∧ i ∈ kwic_hits tokens lm pos_tag ∧
      row = mkRow tokens window i := by
  simp only [kwic, List.mem_map] at h
  obtain ⟨i, hi, rfl⟩ := h
  have hmem : i ∈ kwic_hits tokens lm pos_tag := List.take_subset _ _ hi
  exact ⟨i, kwic_hits_lt hmem, hmem, rfl⟩

/-- C7: every row of a KWIC result is built at some match position
`i < n`; its left context holds exactly `min window i` tokens, its
right context exactly `min window (n - 1 - i)` tokens, and both
contexts draw only tokens of the sequence itself. -/
theorem c7_window_clipping (tokens : List Token) (lm pos_tag : String)
    (window max_rows : Nat) (row : KwicRow)
    (hrow : row ∈ kwic tokens lm pos_tag window max_rows) :
    ∃ i, i < tokens.length ∧ row = mkRow tokens window i ∧
      (left_tokens tokens window i).length = min window i ∧
      (right_tokens tokens window i).length = min window (tokens.length - 1 - i) ∧
      (∀ t ∈ left_tokens tokens window i, t ∈ tokens) ∧
      (∀ t ∈ right_tokens tokens window i, t ∈ tokens) := by
  obtain ⟨i, hlt, -, hshape⟩ := kwic_row_shape hrow
  refine ⟨i, hlt, hshape, ?_, ?_, ?_, ?_⟩
  · simp only [left_tokens, List.length_drop, List.length_take]
    omega
  · simp only [right_tokens, List.length_take, List.length_drop]
    omega
  · intro t ht
    exact List.take_subset _ _ (List.drop_subset _ _ ht)
  · intro t ht
    exact List.drop_subset _ _ (List.take_subset _ _ ht)

/-- C7 witness: the clipping facts at the concrete example row. -/
theorem c7_window_clipping_witness :
    ∃ i, i < c1_tokens.length ∧
      (⟨"The cat", "runs", "fast now"⟩ : KwicRow) = mkRow c1_tokens 2 i ∧
      (left_tokens c1_tokens 2 i).length = min 2 i ∧
      (right_tokens c1_tokens 2 i).length = min 2 (c1_tokens.length - 1 - i) ∧
      (∀ t ∈ left_tokens c1_tokens 2 i, t ∈ c1_tokens) ∧
      (∀ t ∈ right_tokens c1_tokens 2 i, t ∈ c1_tokens) :=
  c7_window_clipping c1_tokens "run" "VERB" 2 50 ⟨"The cat", "runs", "fast now"⟩
    (by decide)

/-- C10: the left context at position `i` is a sublist of the tokens
strictly before `i` and reads them off contiguously in source order
(`tokens[i-window+j]` at context offset `j`); the right context is a
sublist of the tokens strictly after `i`, reading `tokens[i+1+j]` at
offset `j`.  In particular the keyword token at `i` never occurs in
its own context windows. -/
theorem c10_contexts_exclude_keyword (tokens : List Token) (window i : Nat) :
    (left_tokens tokens window i).Sublist (tokens.take i) ∧
    (right_tokens tokens window i).Sublist (tokens.drop (i + 1)) ∧
    (∀ j, (left_tokens tokens window i)[j]? =
      if i - window + j < i then tokens[i - window + j]? else none) ∧
    (∀ j, (right_tokens tokens window i)[j]? =
      if j < window then tokens[i + 1 + j]? else none) := by
  refine ⟨List.drop_sublist _ _, List.take_sublist _ _, ?_, ?_⟩
  · intro j
    rw [left_tokens, List.getElem?_drop]
    by_cases hj : i - window + j < i
    · rw [if_pos hj, List.getElem?_take_of_lt hj]
    · rw [if_neg hj]
      refine List.getElem?_eq_none ?_
      rw [List.length_take]
      omega
  · intro j
    by_cases hj : j < window
    · rw [if_pos hj, right_tokens, List.getElem?_take_of_lt hj, List.getElem?_drop]
    · rw [if_neg hj]
      refine List.getElem?_eq_none ?_
      rw [right_tokens, List.length_take]
      omega

/-- The loop of `analyze_pos` builds exactly the lower-cased lemmas of
the qualifying tokens, in document order. -/
theorem analyze_pos_items_eq (doc : List Token) (pos_tag : String) (min_len : Nat)
    (remove_stop : Bool) :
    analyze_pos_items doc pos_tag min_len remove_stop
      = (doc.filter (qualifies pos_tag min_len remove_stop)).map
          (fun t => pyLower t.lemma_) := by
  induction doc with
  | nil => rfl
  | cons t ts ih =>
    simp only [analyze_pos_items, List.filter_cons, qualifies]
    by_cases h1 : (t.pos_ == pos_tag && t.is_alpha) = true
    · by_cases h2 : (remove_stop && t.is_stop) = true
      · simp [h1, h2, ih]
      · by_cases h3 : min_len ≤ (pyLower t.lemma_).length
        · simp [h1, h2, h3, ih]
        · simp [h1, h2, h3, ih]
    · simp [h1, ih]

/-- Counter keys enumerate exactly the elements of the item list. -/
theorem mem_counter_keys {a : String} : ∀ {l : List String},
    a ∈ counter_keys l ↔ a ∈ l := by
  intro l
  induction l with
  | nil => exact Iff.rfl
  | cons x xs ih =>
    simp only [counter_keys, List.mem_cons, List.mem_filter, bne_iff_ne, ne_eq]
    rcases eq_or_ne a x with rfl | hne
    · simp
    · simp [hne, ih]

/-- Counter keys are pairwise distinct. -/
theorem nodup_counter_keys : ∀ (l : List String), (counter_keys l).Nodup := by
  intro l
  induction l with
  | nil => exact List.nodup_nil
  | cons x xs ih =>
    rw [counter_keys, List.nodup_cons]
    refine ⟨?_, ih.filter _⟩
    intro hx
    simp at hx

/-- Removing the occurrences of one value splits the length of a list. -/
theorem count_add_filter_ne_length (k : String) : ∀ (l : List String),
    l.count k + (l.filter (fun y => y != k)).length = l.length := by
  intro l
  induction l with
  | nil => rfl
  | cons x xs ih =>
    rcases eq_or_ne x k with rfl | hne
    · simp only [List.count_cons_self, List.filter_cons, bne_self_eq_false,
        Bool.false_eq_true, if_false, List.length_cons]
      omega
    · rw [List.count_cons_of_ne (Ne.symm hne)]
      have hb : (x != k) = true := by simpa using hne
      simp only [List.filter_cons, hb, if_true, List.length_cons]
      omega


/-- Counting every key of a duplicate-free key list that covers `l`
recovers the length of `l`. -/
theorem sum_map_count_eq_length :
    ∀ (keys : List String), keys.Nodup → ∀ (l : List String),
      (∀ a ∈ l, a ∈ keys) → ((keys.map (fun k => l.count k)).sum = l.length) := by
  intro keys
  induction keys with
  | nil =>
    intro _ l hl
    have hnil : l = [] := List.eq_nil_iff_forall_not_mem.mpr
      (fun a ha => by simpa using hl a ha)
    subst hnil
    rfl
  | cons k ks ih =>
    intro hnd l hl
    obtain ⟨hknot, hnd'⟩ := List.nodup_cons.mp hnd
    have hrest : ∀ k' ∈ ks, l.count k' = (l.filter (fun y => y != k)).count k' := by
      intro k' hk'
      have hne : k' ≠ k := fun h => hknot (h ▸ hk')
      rw [List.count_filter (by simpa using hne)]
    have hcover : ∀ a ∈ l.filter (fun y => y != k), a ∈ ks := by
      intro a ha
      obtain ⟨hal, hane⟩ := List.mem_filter.mp ha
      rcases List.mem_cons.mp (hl a hal) with rfl | h
      · simp at hane
      · exact h
    calc ((k :: ks).map (fun x => l.count x)).sum
        = l.count k + (ks.map (fun x => l.count x)).sum := by
          rw [List.map_cons, List.sum_cons]
      _ = l.count k + (ks.map (fun x => (l.filter (fun y => y != k)).count x)).sum := by
          rw [List.map_congr_left hrest]
      _ = l.count k + (l.filter (fun y => y != k)).length := by
          rw [ih hnd' _ hcover]
      _ = l.length := count_add_filter_ne_length k l

/-- The counts of `most_common` sum to the number of counted items. -/
theorem most_common_snd_sum (items : List String) :
    ((most_common items).map Prod.snd).sum = items.length := by
  have hperm : List.Perm (most_common items)
      ((counter_keys items).map (fun k => (k, items.count k))) :=
    List.mergeSort_perm _ _
  rw [(hperm.map Prod.snd).sum_eq, List.map_map]
  have hcomp : (Prod.snd ∘ fun k => (k, items.count k)) = fun k => items.count k := rfl
  rw [hcomp]
  exact sum_map_count_eq_length _ (nodup_counter_keys items) items
    (fun a ha => mem_counter_keys.mpr ha)

/-- C2: the counts of the frequency table sum to the number of tokens
passing the POS, alphabetic, stop-word and minimum-length filters. -/
theorem c2_counts_sum_to_qualifying (doc : List Token) (pos_tag : String)
    (min_len : Nat) (remove_stop : Bool) :
    ((analyze_pos doc pos_tag min_len remove_stop).map Prod.snd).sum
      = (doc.filter (qualifies pos_tag min_len remove_stop)).length := by
  rw [analyze_pos, most_common_snd_sum, analyze_pos_items_eq, List.length_map]

/-- Membership in a `most_common` table characterised by keys and
counts of the underlying item list. -/
theorem mem_most_common {items : List String} {lm : String} {c : Nat} :
    (lm, c) ∈ most_common items ↔ lm ∈ counter_keys items ∧ c = items.count lm := by
  rw [most_common, List.mem_mergeSort, List.mem_map]
  constructor
  · rintro ⟨k, hk, heq⟩
    injection heq with h1 h2
    subst h1
    exact ⟨hk, h2.symm⟩
  · rintro ⟨hmem, rfl⟩
    exact ⟨lm, hmem, rfl⟩

/-- The multiplicity of a lemma among the items equals the number of
qualifying tokens lowering to that lemma. -/
theorem count_items_eq (doc : List Token) (pos_tag : String) (min_len : Nat)
    (remove_stop : Bool) (lm : String) :
    (analyze_pos_items doc pos_tag min_len remove_stop).count lm
      = (doc.filter (fun t => qualifies pos_tag min_len remove_stop t
          && (pyLower t.lemma_ == lm))).length := by
  rw [analyze_pos_items_eq, List.count_eq_countP, List.countP_map,
    List.countP_filter, ← List.countP_eq_length_filter]
  refine List.countP_congr ?_
  intro t _
  simp only [Function.comp_apply, Bool.and_comm]

/-- C5: every table entry `(lm, c)` of `analyze_pos` is witnessed by a
token with the target POS, alphabetic, not a stop word when exclusion
is on, lowering to `lm`; and `c` counts exactly the qualifying tokens
lowering to `lm`, so filtered-out tokens contribute nothing. -/
theorem c5_table_entries_qualify (doc : List Token) (pos_tag : String)
    (min_len : Nat) (remove_stop : Bool) (lm : String) (c : Nat)
    (h : (lm, c) ∈ analyze_pos doc pos_tag min_len remove_stop) :
    (∃ t, t ∈ doc ∧ t.pos_ = pos_tag ∧ t.is_alpha = true ∧
        (remove_stop = true → t.is_stop = false) ∧ pyLower t.lemma_ = lm) ∧
    c = (doc.filter (fun t => qualifies pos_tag min_len remove_stop t
          && (pyLower t.lemma_ == lm))).length := by
  rw [analyze_pos] at h
  obtain ⟨hkeys, hc⟩ := mem_most_common.mp h
  have hmem : lm ∈ analyze_pos_items doc pos_tag min_len remove_stop :=
    mem_counter_keys.mp hkeys
  rw [analyze_pos_items_eq] at hmem
  obtain ⟨t, htf, hteq⟩ := List.mem_map.mp hmem
  obtain ⟨htdoc, htq⟩ := List.mem_filter.mp htf
  simp only [qualifies, Bool.and_eq_true, beq_iff_eq] at htq
  obtain ⟨⟨⟨hpos, halpha⟩, hstop⟩, -⟩ := htq
  refine ⟨⟨t, htdoc, hpos, halpha, ?_, hteq⟩, ?_⟩
  · intro hrs
    rw [hrs] at hstop
    simpa using hstop
  · rw [hc, count_items_eq]

unseal List.merge List.mergeSort in
theorem analyze_pos_c1_eval : analyze_pos c1_tokens "VERB" 2 true = [("run", 1)] := rfl

/-- C5 witness: the single verb entry of the example document. -/
theorem c5_table_entries_qualify_witness :
    (∃ t, t ∈ c1_tokens ∧ t.pos_ = "VERB" ∧ t.is_alpha = true ∧
        (true = true → t.is_stop = false) ∧ pyLower t.lemma_ = "run") ∧
    1 = (c1_tokens.filter (fun t => qualifies "VERB" 2 true t
          && (pyLower t.lemma_ == "run"))).length :=
  c5_table_entries_qualify c1_tokens "VERB" 2 true "run" 1
    (by rw [analyze_pos_c1_eval]; exact List.mem_singleton.mpr rfl)

/-- The sort comparison of `most_common` is transitive. -/
theorem countLe_trans : ∀ (a b c : String × Nat),
    countLe a b → countLe b c → countLe a c := by
  intro a b c
  simp only [countLe, decide_eq_true_eq]
  omega

/-- The sort comparison of `most_common` is total. -/
theorem countLe_total : ∀ (a b : String × Nat), countLe a b || countLe b a := by
  intro a b
  simp only [countLe, Bool.or_eq_true, decide_eq_true_eq]
  omega

/-- Counter keys are listed in order of first occurrence in the item
list. -/
theorem pairwise_counter_keys : ∀ (l : List String),
    (counter_keys l).Pairwise (fun a b => l.indexOf a < l.indexOf b) := by
  intro l
  induction l with
  | nil => exact List.Pairwise.nil
  | cons x xs ih =>
    rw [counter_keys]
    refine List.Pairwise.cons ?_ ?_
    · intro b hb
      obtain ⟨hbmem, hbx⟩ := List.mem_filter.mp hb
      have hbx' : b ≠ x := by simpa using hbx
      rw [List.indexOf_cons_self, List.indexOf_cons_ne _ (Ne.symm hbx')]
      exact Nat.succ_pos _
    · refine (ih.filter (fun y => y != x)).imp_of_mem ?_
      intro a b ha hb hord
      obtain ⟨-, hax⟩ := List.mem_filter.mp ha
      obtain ⟨-, hbx⟩ := List.mem_filter.mp hb
      rw [List.indexOf_cons_ne _ (Ne.symm (by simpa using hax)),
          List.indexOf_cons_ne _ (Ne.symm (by simpa using hbx))]
      omega

/-- Two distinct members of a list occur in it in one order or the
other. -/
theorem sublist_pair_of_mem {a b : String} : ∀ {l : List String},
    a ∈ l → b ∈ l → a ≠ b → [a, b].Sublist l ∨ [b, a].Sublist l := by
  intro l
  induction l with
  | nil =>
    intro ha
    cases ha
  | cons x xs ih =>
    intro ha hb hne
    rcases List.mem_cons.mp ha with rfl | ha'
    · have hb' : b ∈ xs := by
        rcases List.mem_cons.mp hb with rfl | h
        · exact absurd rfl hne
        · exact h
      exact Or.inl (List.Sublist.cons₂ _ (List.singleton_sublist.mpr hb'))
    · rcases List.mem_cons.mp hb with rfl | hb'
      · exact Or.inr (List.Sublist.cons₂ _ (List.singleton_sublist.mpr ha'))
      · rcases ih ha' hb' hne with h | h
        · exact Or.inl (h.cons _)
        · exact Or.inr (h.cons _)

/-- C4: the frequency table is ordered by non-increasing count, and two
entries with the same count appear in the order in which their lemmas
first occur in the filtered token sequence. -/
theorem c4_table_order (doc : List Token) (pos_tag : String) (min_len : Nat)
    (remove_stop : Bool) :
    (analyze_pos doc pos_tag min_len remove_stop).Pairwise (fun a b => b.2 ≤ a.2) ∧
    (∀ lm1 lm2 : String, ∀ c : Nat,
      (lm1, c) ∈ analyze_pos doc pos_tag min_len remove_stop →
      (lm2, c) ∈ analyze_pos doc pos_tag min_len remove_stop →
      ((doc.filter (qualifies pos_tag min_len remove_stop)).map
          (fun t => pyLower t.lemma_)).indexOf lm1
        < ((doc.filter (qualifies pos_tag min_len remove_stop)).map
            (fun t => pyLower t.lemma_)).indexOf lm2 →
      [(lm1, c), (lm2, c)].Sublist (analyze_pos doc pos_tag min_len remove_stop)) := by
  constructor
  · exact (List.sorted_mergeSort countLe_trans countLe_total _).imp
      (fun hab => by simpa [countLe] using hab)
  · intro lm1 lm2 c h1 h2 hlt
    rw [← analyze_pos_items_eq] at hlt
    rw [analyze_pos] at h1 h2 ⊢
    obtain ⟨hk1, hc1⟩ := mem_most_common.mp h1
    obtain ⟨hk2, hc2⟩ := mem_most_common.mp h2
    have hne : lm1 ≠ lm2 := by
      intro h
      rw [h] at hlt
      omega
    have hpair : [lm1, lm2].Sublist
        (counter_keys (analyze_pos_items doc pos_tag min_len remove_stop)) := by
      rcases sublist_pair_of_mem hk1 hk2 hne with h | h
      · exact h
      · exfalso
        have hp := List.Pairwise.sublist h
          (pairwise_counter_keys (analyze_pos_items doc pos_tag min_len remove_stop))
        have := List.pairwise_pair.mp hp
        omega
    have hmap := hpair.map
      (fun k => (k, (analyze_pos_items doc pos_tag min_len remove_stop).count k))
    rw [List.map_cons, List.map_cons, List.map_nil, ← hc1, ← hc2] at hmap
    rw [most_common]
    exact List.pair_sublist_mergeSort countLe_trans countLe_total
      (by simp [countLe]) hmap

/-- The four-verb document for the tie-order example: lemma "run"
occurs twice, "walk" and "jog" once each, first encountered in that
order. -/
def c4_doc : List Token :=
  [⟨"ran", "run", "VERB", true, false⟩,
   ⟨"walks", "walk", "VERB", true, false⟩,
   ⟨"runs", "run", "VERB", true, false⟩,
   ⟨"jogs", "jog", "VERB", true, false⟩]

unseal List.merge List.mergeSort in
theorem analyze_pos_c4_eval :
    analyze_pos c4_doc "VERB" 2 true = [("run", 2), ("walk", 1), ("jog", 1)] := rfl

/-- C4 witness: on the four-verb document the table is sorted by
descending count and the tied entries ("walk",1), ("jog",1) keep their
first-encounter order. -/
theorem c4_table_order_witness :
    (analyze_pos c4_doc "VERB" 2 true).Pairwise (fun a b => b.2 ≤ a.2) ∧
    [("walk", 1), ("jog", 1)].Sublist (analyze_pos c4_doc "VERB" 2 true) :=
  ⟨(c4_table_order c4_doc "VERB" 2 true).1,
   (c4_table_order c4_doc "VERB" 2 true).2 "walk" "jog" 1
     (by rw [analyze_pos_c4_eval]; decide)
     (by rw [analyze_pos_c4_eval]; decide)
     (by decide)⟩

/-- The Python index comprehension over `enumerate` coincides with
filtering the index range by the token predicate. -/
theorem enumFrom_filter_map (p : Token → Bool) : ∀ (l : List Token) (k : Nat),
    ((List.enumFrom k l).filter (fun it => p it.2)).map Prod.fst
      = (List.range' k l.length).filter (fun i => (l[i - k]?).any p) := by
  intro l
  induction l with
  | nil => intro k; rfl
  | cons t ts ih =>
    intro k
    rw [List.enumFrom_cons, List.length_cons, List.range'_succ]
    rw [List.filter_cons, List.filter_cons]
    have hhead : (((t :: ts)[k - k]?).any p) = p t := by
      rw [Nat.sub_self, List.getElem?_cons_zero]
      rfl
    rw [hhead]
    have htail : (List.range' (k + 1) ts.length).filter
          (fun i => (((t :: ts)[i - k]?).any p))
        = (List.range' (k + 1) ts.length).filter (fun i => ((ts[i - (k + 1)]?).any p)) := by
      refine List.filter_congr ?_
      intro i hi
      have hik : k + 1 ≤ i := (List.mem_range'_1.mp hi).1
      have hsub : i - k = (i - (k + 1)) + 1 := by omega
      rw [hsub, List.getElem?_cons_succ]
    by_cases hp : p t
    · rw [if_pos hp, if_pos hp, List.map_cons, ih (k + 1), htail]
    · rw [if_neg hp, if_neg hp, ih (k + 1), htail]

/-- The hit list of `kwic` is exactly the filtered index range. -/
theorem kwic_hits_eq_match_indices (tokens : List Token) (lm pos_tag : String) :
    kwic_hits tokens lm pos_tag = match_indices tokens lm pos_tag := by
  rw [kwic_hits, match_indices, List.enum_eq_enumFrom,
    enumFrom_filter_map (matchTok lm pos_tag) tokens 0, List.range_eq_range']
  refine List.filter_congr ?_
  intro i _
  rw [Nat.sub_zero]

/-- Filtering enumerated pairs by a token predicate keeps as many
elements as filtering the tokens themselves. -/
theorem length_filter_enumFrom (p : Token → Bool) : ∀ (l : List Token) (k : Nat),
    ((List.enumFrom k l).filter (fun it => p it.2)).length = (l.filter p).length := by
  intro l
  induction l with
  | nil => intro k; rfl
  | cons t ts ih =>
    intro k
    rw [List.enumFrom_cons, List.filter_cons, List.filter_cons]
    by_cases hp : p t
    · rw [if_pos hp, if_pos hp, List.length_cons, List.length_cons, ih]
    · rw [if_neg hp, if_neg hp, ih]

/-- C6: a KWIC request returns at most `max_rows` rows and at most as
many rows as there are matching tokens; the match positions are listed
in strictly increasing document order and the returned rows are built
from the earliest `max_rows` of them, in that order. -/
theorem c6_kwic_bounds_and_order (tokens : List Token) (lm pos_tag : String)
    (window max_rows : Nat) :
    (kwic tokens lm pos_tag window max_rows).length ≤ max_rows ∧
    (kwic tokens lm pos_tag window max_rows).length
      ≤ (tokens.filter (matchTok lm pos_tag)).length ∧
    (match_indices tokens lm pos_tag).Pairwise (· < ·) ∧
    kwic tokens lm pos_tag window max_rows
      = ((match_indices tokens lm pos_tag).take max_rows).map (mkRow tokens window) := by
  have hlen : (kwic tokens lm pos_tag window max_rows).length
      = min max_rows (kwic_hits tokens lm pos_tag).length := by
    rw [kwic, List.length_map, List.length_take]
  have hhits : (kwic_hits tokens lm pos_tag).length
      = (tokens.filter (matchTok lm pos_tag)).length := by
    rw [kwic_hits, List.length_map, List.enum_eq_enumFrom]
    exact length_filter_enumFrom _ tokens 0
  refine ⟨?_, ?_, ?_, ?_⟩
  · rw [hlen]
    exact Nat.min_le_left _ _
  · rw [hlen, hhits]
    exact Nat.min_le_right _ _
  · rw [match_indices]
    exact (List.pairwise_lt_range _).filter _
  · rw [kwic, kwic_hits_eq_match_indices]

end SFLizer
